import Mathlib

/-!
Verification of the target/project orchestration engine of cheribuild
(`pycheribuild/projects/project.py`), shallowly embedded in Lean.

The embedding keeps the source structure: Python dicts / OrderedDicts become
association lists with first-match lookup and in-place replacement on update,
the dependency walk `SimpleProject.allDependencyNames` becomes a fuel-indexed
recursion (fuel exhaustion models Python stack growth / non-termination),
stateful lifecycle code becomes pure functions producing traces of the
external operations they perform, and fallible code returns an error sum.
-/

set_option maxHeartbeats 1000000

namespace CheriBuild

/-! ### Ordered dictionaries

Python `dict` / `collections.OrderedDict` as association lists with unique
keys in practice: `assocLookup` is first-match lookup, `odSet` replaces the
value of an existing key in place (keeping its position, as `d[k] = v` does)
or appends a fresh key at the end, and `odUpdate` is `dict.update`. -/
def assocLookup {α : Type} : List (String × α) → String → Option α
  | [], _ => none
  | (k, v) :: rest, name => if k = name then some v else assocLookup rest name

def odSet {α : Type} : List (String × α) → String → α → List (String × α)
  | [], k, v => [(k, v)]
  | (k0, v0) :: rest, k, v =>
    if k0 = k then (k, v) :: rest else (k0, v0) :: odSet rest k v

def odUpdate {α : Type} (d other : List (String × α)) : List (String × α) :=
  other.foldl (fun acc p => odSet acc p.1 p.2) d

/-- First-some choice: the lookup result of a dict after `update` is the
updating dict's answer when present, else the original's. -/
def updatedLookup {α : Type} (bv av : Option α) : Option α :=
  match bv with
  | some v => some v
  | none => av

/-! ### Python string helpers

Python `str.startswith` and `str.strip`, modelled on the character list
underlying the string. -/
def startsWithList {α : Type} [DecidableEq α] : List α → List α → Bool
  | _, [] => true
  | [], _ :: _ => false
  | c :: cs, p :: ps => p = c && startsWithList cs ps

/-- Python `s.startswith(p)`. -/
def pyStartsWith (s p : String) : Bool :=
  startsWithList s.data p.data

/-- Python `s.strip()` (strip whitespace from both ends). -/
def pyStrip (s : String) : String :=
  ⟨((s.data.dropWhile Char.isWhitespace).reverse.dropWhile Char.isWhitespace).reverse⟩

/-! ### Target dependency graph — `SimpleProject.allDependencyNames`

`project.py` lines 138-154.  The target registry (`targetManager.targetMap`)
is modelled as an association list from target names to their declared
dependency name lists.  The Python walk is

    result = []
    for dep in dependencies:
        if dep not in result:
            result.append(dep)
        recursive_deps = targetManager.targetMap[dep].projectClass.allDependencyNames()
        for r in recursive_deps:
            if r not in result:
                result.append(r)
    return result

The recursion is unguarded (there is no visited set shared across calls), so
the Lean embedding is indexed by a fuel bound on the call depth; running out
of fuel (`outOfFuel`) models unbounded recursion, and a missing registry key
(`keyError`) models the `KeyError` from `targetMap[dep]`. -/
inductive DepResult where
  | ok (names : List String)
  | keyError (name : String)
  | outOfFuel
deriving DecidableEq

/-- `if x not in result: result.append(x)`. -/
def insertIfAbsent (result : List String) (x : String) : List String :=
  if x ∈ result then result else result ++ [x]

/-- Append every element of `xs` that is not yet in `result`. -/
def mergeNew (result : List String) (xs : List String) : List String :=
  xs.foldl insertIfAbsent result

/-- The body of the `for dep in dependencies` loop. -/
def depsLoop (recur : String → DepResult) : List String → List String → DepResult
  | [], result => .ok result
  | dep :: rest, result =>
    match recur dep with
    | .ok recResult => depsLoop recur rest (mergeNew (insertIfAbsent result dep) recResult)
    | .keyError n => .keyError n
    | .outOfFuel => .outOfFuel

/-- `SimpleProject.allDependencyNames`, fuel-indexed. -/
def allDependencyNames (tm : List (String × List String)) :
    Nat → String → DepResult
  | 0, _ => .outOfFuel
  | fuel + 1, name =>
    match assocLookup tm name with
    | none => .keyError name
    | some deps => depsLoop (fun d => allDependencyNames tm fuel d) deps []

/-- `Reach tm n x`: `x` is in the transitive dependency closure of target
`n` in registry `tm` (one or more declared-dependency edges). -/
inductive Reach (tm : List (String × List String)) : String → String → Prop
  | head (n : String) (l : List String) (d : String) :
      assocLookup tm n = some l → d ∈ l → Reach tm n d
  | step (n : String) (l : List String) (d x : String) :
      assocLookup tm n = some l → d ∈ l → Reach tm d x → Reach tm n x

/-- Concrete mutually-referential registry: `liba → libb → liba`
(the A→B→A shape from the claim). -/
def cycleTM : List (String × List String) :=
  [("liba", ["libb"]), ("libb", ["liba"])]

/-- Concrete diamond-shaped acyclic registry. -/
def diamondTM : List (String × List String) :=
  [("top", ["left", "right"]), ("left", ["base"]), ("right", ["base"]), ("base", [])]

/-- Rank function witnessing that `diamondTM` is acyclic. -/
def diamondRank (n : String) : Nat :=
  if n = "top" then 2 else if n = "base" then 0 else 1

/-! ### Make-style option sets — `MakeOptions`

`project.py` lines 416-513.  `_vars`, `_with_options` and `env_vars` are
(ordered) dicts, `_flags` a plain list.  `set(**kwargs)` normalizes booleans
to the strings `"1"` / `"0"` (`__do_set`); kwargs are modelled one binding
at a time.  Rendering (`all_commandline_args`) turns a stored `"1"` into
`-DNAME` for BSD make and `NAME=1` for GNU make (`_get_defined_var`), and
asserts for every other make kind; errors are modelled with an error sum. -/
inductive MakeCommandKind where
  | defaultMake
  | gnuMake
  | bsdMake
  | ninja
  | customMakeTool
deriving DecidableEq

/-- A value passed to `MakeOptions.set`: Python `bool` or anything else
(already a string after `str(v)`). -/
inductive MakeValue where
  | bool (b : Bool)
  | str (s : String)
deriving DecidableEq

/-- `__do_set`: booleans become `"1"` / `"0"`, everything else `str(v)`. -/
def MakeValue.stored : MakeValue → String
  | .bool true => "1"
  | .bool false => "0"
  | .str s => s

structure MakeOptions where
  vars : List (String × String)
  with_options : List (String × Bool)
  flags : List String
  env_vars : List (String × String)
  kind : MakeCommandKind
deriving DecidableEq

/-- `MakeOptions.set` (one kwarg binding). -/
def MakeOptions.set (o : MakeOptions) (k : String) (v : MakeValue) : MakeOptions :=
  { o with vars := odSet o.vars k v.stored }

/-- `MakeOptions.set_env` (one kwarg binding). -/
def MakeOptions.set_env (o : MakeOptions) (k : String) (v : MakeValue) : MakeOptions :=
  { o with env_vars := odSet o.env_vars k v.stored }

/-- `MakeOptions.set_with_options` (one kwarg binding; values must be bool). -/
def MakeOptions.set_with_options (o : MakeOptions) (k : String) (v : Bool) : MakeOptions :=
  { o with with_options := odSet o.with_options k v }

/-- `MakeOptions.add_flags`. -/
def MakeOptions.add_flags (o : MakeOptions) (args : List String) : MakeOptions :=
  { o with flags := o.flags ++ args }

/-- An assertion failure (Python `assert`) or other fatal error escaping a
`MakeOptions` operation. -/
inductive MakeErr where
  | assertionFailed
deriving DecidableEq

/-- `MakeOptions._get_defined_var`: BSD make spells a defined variable
`-DVAR`; otherwise the code asserts GNU make and spells it `VAR=1`. -/
def getDefinedVar (kind : MakeCommandKind) (name : String) : Except MakeErr String :=
  match kind with
  | .bsdMake => .ok ("-D" ++ name)
  | .gnuMake => .ok (name ++ "=1")
  | _ => .error .assertionFailed

/-- The token rendered for one `_vars` entry. -/
def varToken (kind : MakeCommandKind) (p : String × String) : Except MakeErr String :=
  if p.2 = "1" then getDefinedVar kind p.1 else .ok (p.1 ++ "=" ++ p.2)

/-- The token rendered for one `_with_options` entry:
`_get_defined_var("WITH_" if v else "WITHOUT_") + k`. -/
def withToken (kind : MakeCommandKind) (p : String × Bool) : Except MakeErr String :=
  match getDefinedVar kind (if p.2 then "WITH_" else "WITHOUT_") with
  | .ok s => .ok (s ++ p.1)
  | .error e => .error e

/-- Error-propagating map over a list (first failure wins, as the Python
loop raises at the first failing element). -/
def exceptMapM {α β : Type} (f : α → Except MakeErr β) : List α → Except MakeErr (List β)
  | [] => .ok []
  | x :: xs =>
    match f x with
    | .ok y =>
      match exceptMapM f xs with
      | .ok ys => .ok (y :: ys)
      | .error e => .error e
    | .error e => .error e

/-- `MakeOptions.all_commandline_args`: variables first, then the
WITH/WITHOUT options, then the raw flags. -/
def MakeOptions.all_commandline_args (o : MakeOptions) : Except MakeErr (List String) :=
  match exceptMapM (varToken o.kind) o.vars with
  | .ok varArgs =>
    match exceptMapM (withToken o.kind) o.with_options with
    | .ok withArgs => .ok (varArgs ++ withArgs ++ o.flags)
    | .error e => .error e
  | .error e => .error e

/-- `MakeOptions.remove_var`: drop the variable from `_vars` and
`_with_options`, and drop every raw flag whose `strip()` is `-D<name>` or
that starts with `<name>=`. -/
def MakeOptions.remove_var (o : MakeOptions) (variable0 : String) : MakeOptions :=
  { o with
    vars := o.vars.filter (fun p => ¬p.1 = variable0)
    with_options := o.with_options.filter (fun p => ¬p.1 = variable0)
    flags := o.flags.filter
      (fun f => ¬(pyStrip f = "-D" ++ variable0 ∨ pyStartsWith f (variable0 ++ "=") = true)) }

/-- `MakeOptions.update` (the `merge(other)` of the spec): dict `update` on
`_vars`, `_with_options` and `env_vars`; `extend` on `_flags`. -/
def MakeOptions.update (o other : MakeOptions) : MakeOptions :=
  { o with
    vars := odUpdate o.vars other.vars
    with_options := odUpdate o.with_options other.with_options
    flags := o.flags ++ other.flags
    env_vars := odUpdate o.env_vars other.env_vars }

/-! ### Repository synchronizer — `Project._updateGitRepo`

`project.py` lines 688-729.  The git operations the method issues are
modelled as a trace; the environment (`GitEnv`) holds the observations the
method makes: whether `srcDir/.git` exists, the answers of the two
`queryYesNo` prompts, the length of the `git diff --stat
--ignore-submodules` output, and whether the stash output contains
`"No local changes to save"`. -/
inductive GitOp where
  | clone (recurseSubmodules : Bool) (branch : Option String)
  | diffStat
  | stashSave
  | pull (recurseSubmodules : Bool)
  | submoduleUpdate
  | stashPop
  | checkout (rev : String)
deriving DecidableEq

/-- Which git operations can modify the working tree (`git diff --stat` is
read-only). -/
def GitOp.mutatesTree : GitOp → Bool
  | .diffStat => false
  | _ => true

structure GitEnv where
  gitDirExists : Bool
  cloneAnswer : Bool
  diffStatLen : Nat
  stashAnswer : Bool
  stashSaysNoLocalChanges : Bool
deriving DecidableEq

inductive GitFatal where
  | sourcesMissing
deriving DecidableEq

/-- `Project._ensureGitRepoIsCloned`: clone (recursing into submodules
unless disabled, checking out the branch if given) after confirmation when
no repository exists; fatal if the user declines. -/
def ensureGitRepoIsCloned (env : GitEnv) (initialBranch : Option String)
    (skipSubmodules : Bool) : Except GitFatal (List GitOp) :=
  if env.gitDirExists then .ok []
  else if ¬env.cloneAnswer then .error .sourcesMissing
  else .ok [GitOp.clone (!skipSubmodules) initialBranch]

/-- `Project._updateGitRepo`.  `hasChanges` is `len(diff-stat output) > 1`;
a declined stash prompt returns early; the stash output
`"No local changes to save"` clears `hasChanges` so the pop is skipped. -/
def updateGitRepo (env : GitEnv) (revision : Option String)
    (initialBranch : Option String) (skipSubmodules : Bool) :
    Except GitFatal (List GitOp) :=
  match ensureGitRepoIsCloned env initialBranch skipSubmodules with
  | .error e => .error e
  | .ok cloneOps =>
    let hasChanges := decide (env.diffStatLen > 1)
    let t1 := cloneOps ++ [GitOp.diffStat]
    if hasChanges ∧ ¬env.stashAnswer then
      .ok t1
    else
      let t2 := if hasChanges then t1 ++ [GitOp.stashSave] else t1
      let hasChanges2 := hasChanges && !env.stashSaysNoLocalChanges
      let t3 := t2 ++ [GitOp.pull (!skipSubmodules)]
      let t4 := if ¬skipSubmodules then t3 ++ [GitOp.submoduleUpdate] else t3
      let t5 := if hasChanges2 then t4 ++ [GitOp.stashPop] else t4
      let t6 := match revision with
        | some r => t5 ++ [GitOp.checkout r]
        | none => t5
      .ok t6

/-- The update order as the claim states it: detect via diff-stat, stash
only if changes were detected and confirmed, pull with rebase, recursive
submodule update unless submodules are disabled, pop only if a stash was
actually created (`"no local changes to save"` suppresses it), checkout of
the pinned revision last. -/
def claimUpdateOrder (env : GitEnv) (revision : Option String)
    (skipSubmodules : Bool) : List GitOp :=
  let changed := decide (env.diffStatLen > 1)
  [GitOp.diffStat] ++
  (if changed && env.stashAnswer then [GitOp.stashSave] else []) ++
  [GitOp.pull (!skipSubmodules)] ++
  (if !skipSubmodules then [GitOp.submoduleUpdate] else []) ++
  (if changed && env.stashAnswer && !env.stashSaysNoLocalChanges
    then [GitOp.stashPop] else []) ++
  (match revision with
    | some r => [GitOp.checkout r]
    | none => [])

/-! ### Project build lifecycle — `SimpleProject.process` / `Project.compile`

`project.py` lines 373-385 (`checkSystemDependencies`), 823-826
(`Project.compile`) and 895-924 (`Project.process`).  The phases executed
are modelled as a trace; the `compilePhase` event records the value of
`_systemDepsChecked` at the moment `compile()` is invoked.  Fatal errors
(`fatalError` / `dependencyError` from `utils.py`, and the Python `assert`
at line 908) abort the run and are modelled as errors. -/
structure BuildConfig where
  skipUpdate : Bool
  skipConfigure : Bool
  configureOnly : Bool
  skipInstall : Bool
  clean : Bool
deriving DecidableEq

structure ProjState where
  systemDepsChecked : Bool
  requiredTools : List (String × Bool)
  repositoryConfigured : Bool
  generateCmakelists : Bool
deriving DecidableEq

inductive Phase where
  | generateCmakelistsPhase
  | updatePhase
  | checkSysDepsPhase
  | cleanPhase
  | configurePhase
  | compilePhase (depsCheckedAtCall : Bool)
  | installPhase
deriving DecidableEq

inductive BuildFatal where
  | missingTool (t : String)
  | missingRepoURL
  | assertionFailed
deriving DecidableEq

/-- `SimpleProject.checkSystemDependencies`: the first required tool not on
the search path is a fatal dependency error; otherwise the
`_systemDepsChecked` flag is set.  (`dependencyError` sets the flag before
aborting; the abort makes the post-state irrelevant.) -/
def checkSystemDependencies (st : ProjState) : Except BuildFatal ProjState :=
  match st.requiredTools.find? (fun p => !p.2) with
  | some p => .error (.missingTool p.1)
  | none => .ok { st with systemDepsChecked := true }

/-- `Project.compile`: unconditionally runs `runMake("all")`.  There is no
check of `_systemDepsChecked` in this method; the event records the flag
value at call time. -/
def projectCompile (st : ProjState) : List Phase :=
  [Phase.compilePhase st.systemDepsChecked]

/-- The update step of `process`: skipped by the run-wide flag, otherwise
fatal when no repository URL is configured. -/
def processUpdateStep (cfg : BuildConfig) (st : ProjState) :
    Except BuildFatal (List Phase) :=
  if cfg.skipUpdate then .ok []
  else if st.repositoryConfigured then .ok [Phase.updatePhase]
  else .error .missingRepoURL

/-- The dependency-check step of `process`:
`if not self._systemDepsChecked: self.checkSystemDependencies()`. -/
def processCheckStep (st : ProjState) : Except BuildFatal (ProjState × List Phase) :=
  if st.systemDepsChecked then .ok (st, [])
  else
    match checkSystemDependencies st with
    | .ok st2 => .ok (st2, [Phase.checkSysDepsPhase])
    | .error e => .error e

/-- `SimpleProject.process` as implemented by `Project.process`: generate
CMakeLists if requested, update unless skipped, run the dependency check if
the flag is not yet set, `assert self._systemDepsChecked`, clean if
requested, configure unless skipped (or when configure-only), stop after
configure in configure-only mode, compile, install unless skipped. -/
def process (cfg : BuildConfig) (st : ProjState) : Except BuildFatal (List Phase) :=
  let t0 : List Phase :=
    if st.generateCmakelists then [Phase.generateCmakelistsPhase] else []
  match processUpdateStep cfg st with
  | .error e => .error e
  | .ok updEvs =>
    match processCheckStep st with
    | .error e => .error e
    | .ok (st2, chkEvs) =>
      if st2.systemDepsChecked = false then .error .assertionFailed
      else
        let t2 := t0 ++ updEvs ++ chkEvs
        let t3 := if cfg.clean then t2 ++ [Phase.cleanPhase] else t2
        let t4 := if ¬cfg.skipConfigure ∨ cfg.configureOnly
          then t3 ++ [Phase.configurePhase] else t3
        if cfg.configureOnly then .ok t4
        else
          let t5 := t4 ++ projectCompile st2
          .ok (if ¬cfg.skipInstall then t5 ++ [Phase.installPhase] else t5)

/-! ### Attribute assignment guard — `Project.__setattr__` / `Project.__init__`

`project.py` lines 636-686.  The Python instance `__dict__` is an ordered
map from attribute names to values; `__setattr__` consults
`self.__dict__.get("_preventAssign")` and rejects rebinding of
`configureArgs`, `configureEnvironment` and `make_args` once it is set.
`__init__` assigns those containers and sets `_preventAssign = True` as its
final statement. -/
inductive AttrValue where
  | str (s : String)
  | strList (l : List String)
  | strMap (m : List (String × String))
  | makeOpts (m : MakeOptions)
  | bool (b : Bool)
deriving DecidableEq

inductive FatalErr where
  | reassign (name : String)
deriving DecidableEq

/-- Whether `self.__dict__.get("_preventAssign")` is truthy. -/
def preventAssignSet (d : List (String × AttrValue)) : Bool :=
  assocLookup d "_preventAssign" == some (.bool true)

/-- `Project.__setattr__`.  Modelled from the spec: `fatalError` lives in
`utils.py`, outside the core sources; per the spec every such error is
fatal to the target, so the rejected assignment is modelled as an error
and does not change the dictionary. -/
def setattr (d : List (String × AttrValue)) (name : String) (v : AttrValue) :
    Except FatalErr (List (String × AttrValue)) :=
  if preventAssignSet d ∧ name ∈ ["configureArgs", "configureEnvironment", "make_args"]
  then .error (.reassign name)
  else .ok (odSet d name v)

/-- In-place mutation of the value bound to an attribute (e.g.
`self.make_args.set(...)` or `self.configureArgs.append(...)`): it acts on
the contained object and never goes through `__setattr__`; it is total. -/
def mutateAttr (d : List (String × AttrValue)) (name : String)
    (f : AttrValue → AttrValue) : List (String × AttrValue) :=
  d.map (fun p => if p.1 = name then (p.1, f p.2) else p)

/-- The instance dictionary `Project.__init__` builds (the make command
string, resolved from the environment in the source, is a parameter). -/
def initDict (makeKind : MakeCommandKind) (makeCommand : String) :
    List (String × AttrValue) :=
  [("configureCommand", .str ""),
   ("configureArgs", .strList []),
   ("configureEnvironment", .strMap []),
   ("_lastStdoutLineCanBeOverwritten", .bool false),
   ("make_args", .makeOpts (MakeOptions.mk [] [] [] [] makeKind)),
   ("makeCommand", .str makeCommand),
   ("_preventAssign", .bool true)]

/-- `Project.__init__`: assigns the option containers and bookkeeping
fields through `__setattr__` (the guard is not yet armed), then sets
`_preventAssign = True` as its last statement. -/
def projectInit (makeKind : MakeCommandKind) (makeCommand : String) :
    Except FatalErr (List (String × AttrValue)) :=
  match setattr [] "configureCommand" (.str "") with
  | .error e => .error e
  | .ok d1 =>
    match setattr d1 "configureArgs" (.strList []) with
    | .error e => .error e
    | .ok d2 =>
      match setattr d2 "configureEnvironment" (.strMap []) with
      | .error e => .error e
      | .ok d3 =>
        match setattr d3 "_lastStdoutLineCanBeOverwritten" (.bool false) with
        | .error e => .error e
        | .ok d4 =>
          match setattr d4 "make_args"
              (.makeOpts (MakeOptions.mk [] [] [] [] makeKind)) with
          | .error e => .error e
          | .ok d5 =>
            match setattr d5 "makeCommand" (.str makeCommand) with
            | .error e => .error e
            | .ok d6 =>
              match setattr d6 "_preventAssign" (.bool true) with
              | .error e => .error e
              | .ok d7 => .ok d7

theorem assocLookup_odSet {α : Type} (d : List (String × α)) (k : String) (v : α)
    (q : String) :
    assocLookup (odSet d k v) q = if k = q then some v else assocLookup d q := by
  induction d with
  | nil =>
    simp only [odSet, assocLookup]
  | cons p rest ih =>
    obtain ⟨k0, v0⟩ := p
    by_cases h : k0 = k
    · subst h
      by_cases h2 : k0 = q
      · subst h2
        simp [odSet, assocLookup]
      · simp [odSet, assocLookup, h2]
    · by_cases h2 : k0 = q
      · subst h2
        have hkq : ¬k = k0 := fun hh => h hh.symm
        simp [odSet, assocLookup, h, hkq]
      · simp [odSet, assocLookup, h, h2, ih]

theorem assocLookup_eq_none_of_not_mem {α : Type} (d : List (String × α))
    (q : String) (h : q ∉ d.map Prod.fst) : assocLookup d q = none := by
  induction d with
  | nil => simp [assocLookup]
  | cons p rest ih =>
    obtain ⟨k0, v0⟩ := p
    simp only [List.map_cons, List.mem_cons] at h
    push_neg at h
    have hne : ¬k0 = q := fun hh => h.1 hh.symm
    simp [assocLookup, hne, ih h.2]

theorem assocLookup_odUpdate {α : Type} (a b : List (String × α))
    (hnd : (b.map Prod.fst).Nodup) (q : String) :
    assocLookup (odUpdate a b) q =
      updatedLookup (assocLookup b q) (assocLookup a q) := by
  induction b generalizing a with
  | nil => simp [odUpdate, assocLookup, updatedLookup]
  | cons p rest ih =>
    obtain ⟨kb, vb⟩ := p
    simp only [List.map_cons, List.nodup_cons] at hnd
    have step : odUpdate a ((kb, vb) :: rest) = odUpdate (odSet a kb vb) rest := rfl
    rw [step, ih (odSet a kb vb) hnd.2]
    by_cases h : kb = q
    · subst h
      have : assocLookup rest kb = none :=
        assocLookup_eq_none_of_not_mem rest kb hnd.1
      simp [assocLookup, this, assocLookup_odSet, updatedLookup]
    · simp [assocLookup, h, assocLookup_odSet, updatedLookup]

theorem startsWithList_iff_append {α : Type} [DecidableEq α] (l p : List α) :
    startsWithList l p = true ↔ ∃ t, p ++ t = l := by
  induction l generalizing p with
  | nil =>
    cases p with
    | nil => simp [startsWithList]
    | cons b bs => simp [startsWithList]
  | cons c cs ih =>
    cases p with
    | nil => simp [startsWithList]
    | cons b bs =>
      simp only [startsWithList, Bool.and_eq_true, decide_eq_true_eq]
      constructor
      · rintro ⟨hb, hrest⟩
        obtain ⟨t, ht⟩ := (ih bs).mp hrest
        exact ⟨t, by simp [hb, ht]⟩
      · rintro ⟨t, ht⟩
        simp only [List.cons_append, List.cons.injEq] at ht
        exact ⟨ht.1, (ih bs).mpr ⟨t, ht.2⟩⟩

/-- If `a ++ sep :: t = b ++ sep :: c` and `sep` occurs in neither `a` nor
`b`, then `a = b` (first occurrence of a separator is unique). -/
theorem sep_split_eq {α : Type} (sep : α) :
    ∀ (a b t c : List α), a ++ sep :: t = b ++ sep :: c →
      sep ∉ a → sep ∉ b → a = b := by
  intro a
  induction a with
  | nil =>
    intro b t c h ha hb
    cases b with
    | nil => rfl
    | cons x bs =>
      simp only [List.nil_append, List.cons_append, List.cons.injEq] at h
      exact absurd (h.1 ▸ List.mem_cons_self x bs) hb
  | cons x as ih =>
    intro b t c h ha hb
    cases b with
    | nil =>
      simp only [List.cons_append, List.nil_append, List.cons.injEq] at h
      exact absurd (h.1.symm ▸ List.mem_cons_self x as) ha
    | cons y bs =>
      simp only [List.cons_append, List.cons.injEq] at h
      have hxne : sep ∉ as := fun hm => ha (List.mem_cons_of_mem x hm)
      have hyne : sep ∉ bs := fun hm => hb (List.mem_cons_of_mem y hm)
      rw [h.1, ih bs t c h.2 hxne hyne]

theorem reach_iff (tm : List (String × List String)) (n : String)
    (deps : List String) (h : assocLookup tm n = some deps) (x : String) :
    Reach tm n x ↔ ∃ d ∈ deps, x = d ∨ Reach tm d x := by
  constructor
  · intro hr
    rcases hr with ⟨_, l, _, hl, hd⟩ | ⟨_, l, d, _, hl, hd, hrest⟩
    · rw [h] at hl
      cases hl
      exact ⟨x, hd, Or.inl rfl⟩
    · rw [h] at hl
      cases hl
      exact ⟨d, hd, Or.inr hrest⟩
  · rintro ⟨d, hd, rfl | hr⟩
    · exact Reach.head n deps x h hd
    · exact Reach.step n deps d x h hd hr

theorem mem_insertIfAbsent (r : List String) (d x : String) :
    x ∈ insertIfAbsent r d ↔ x ∈ r ∨ x = d := by
  unfold insertIfAbsent
  by_cases h : d ∈ r
  · simp only [h, if_true]
    constructor
    · exact Or.inl
    · rintro (hx | rfl)
      · exact hx
      · exact h
  · simp [h, List.mem_append]

theorem nodup_insertIfAbsent (r : List String) (d : String) (h : r.Nodup) :
    (insertIfAbsent r d).Nodup := by
  unfold insertIfAbsent
  by_cases hd : d ∈ r
  · simpa [hd]
  · simp [hd, List.nodup_append, h]

theorem mem_mergeNew (xs : List String) (r : List String) (x : String) :
    x ∈ mergeNew r xs ↔ x ∈ r ∨ x ∈ xs := by
  induction xs generalizing r with
  | nil => simp [mergeNew]
  | cons y ys ih =>
    have step : mergeNew r (y :: ys) = mergeNew (insertIfAbsent r y) ys := rfl
    rw [step, ih]
    rw [mem_insertIfAbsent]
    constructor
    · rintro ((hr | rfl) | hys)
      · exact Or.inl hr
      · exact Or.inr (List.mem_cons_self x ys)
      · exact Or.inr (List.mem_cons_of_mem y hys)
    · rintro (hr | hm)
      · exact Or.inl (Or.inl hr)
      · rcases List.mem_cons.mp hm with rfl | hys
        · exact Or.inl (Or.inr rfl)
        · exact Or.inr hys

theorem nodup_mergeNew (xs : List String) (r : List String) (h : r.Nodup) :
    (mergeNew r xs).Nodup := by
  induction xs generalizing r with
  | nil => simpa [mergeNew]
  | cons y ys ih =>
    have step : mergeNew r (y :: ys) = mergeNew (insertIfAbsent r y) ys := rfl
    rw [step]
    exact ih _ (nodup_insertIfAbsent r y h)

theorem assocLookup_mem {α : Type} (d : List (String × α)) (q : String) (v : α)
    (h : assocLookup d q = some v) : (q, v) ∈ d := by
  induction d with
  | nil => simp [assocLookup] at h
  | cons p rest ih =>
    obtain ⟨k0, v0⟩ := p
    simp only [assocLookup] at h
    split at h
    · rename_i hk
      subst hk
      injection h with hv
      subst hv
      exact List.mem_cons_self _ _
    · exact List.mem_cons_of_mem _ (ih h)

/-- Success and characterization of the dependency loop: if every recursive
call on a member of `ds` succeeds with a list characterized by relation `R`,
the loop succeeds, and its output is the accumulator plus every dependency
and everything its recursion reached, without duplicates. -/
theorem depsLoop_ok (recur : String → DepResult) (R : String → String → Prop) :
    ∀ (ds acc : List String),
      (∀ d ∈ ds, ∃ ld, recur d = DepResult.ok ld ∧ ∀ x, x ∈ ld ↔ R d x) →
      ∃ out, depsLoop recur ds acc = .ok out ∧
        (∀ x, x ∈ out ↔ x ∈ acc ∨ ∃ d ∈ ds, x = d ∨ R d x) ∧
        (acc.Nodup → out.Nodup) := by
  intro ds
  induction ds with
  | nil =>
    intro acc _
    exact ⟨acc, rfl, by simp [depsLoop], id⟩
  | cons d rest ih =>
    intro acc H
    obtain ⟨ld, hld, hmemld⟩ := H d (List.mem_cons_self d rest)
    have H2 : ∀ d2 ∈ rest, ∃ l2, recur d2 = DepResult.ok l2 ∧ ∀ x, x ∈ l2 ↔ R d2 x :=
      fun d2 hd2 => H d2 (List.mem_cons_of_mem d hd2)
    obtain ⟨out, hout, hchar, hnd⟩ := ih (mergeNew (insertIfAbsent acc d) ld) H2
    refine ⟨out, ?_, ?_, ?_⟩
    · simp only [depsLoop, hld]
      exact hout
    · intro x
      rw [hchar x, mem_mergeNew, mem_insertIfAbsent]
      simp only [List.mem_cons]
      constructor
      · rintro (((hacc | rfl) | hxld) | ⟨d2, hd2, hP⟩)
        · exact Or.inl hacc
        · exact Or.inr ⟨x, Or.inl rfl, Or.inl rfl⟩
        · exact Or.inr ⟨d, Or.inl rfl, Or.inr ((hmemld x).mp hxld)⟩
        · exact Or.inr ⟨d2, Or.inr hd2, hP⟩
      · rintro (hacc | ⟨d2, hd2cons, hP2⟩)
        · exact Or.inl (Or.inl (Or.inl hacc))
        · rcases hd2cons with rfl | hd2
          · rcases hP2 with rfl | hP
            · exact Or.inl (Or.inl (Or.inr rfl))
            · exact Or.inl (Or.inr ((hmemld x).mpr hP))
          · exact Or.inr ⟨d2, hd2, hP2⟩
    · intro hacc
      exact hnd (nodup_mergeNew ld _ (nodup_insertIfAbsent acc d hacc))

/-- Main correctness of `allDependencyNames` on an acyclic, fully registered
registry: with enough fuel the walk succeeds, the result has no duplicates,
and it contains exactly the transitive dependency closure.  Acyclicity is
expressed by a rank function decreasing along every dependency edge, and
full registration by closure of the registry under lookup. -/
theorem allDependencyNames_ok (tm : List (String × List String))
    (rank : String → Nat)
    (hclosed : ∀ p ∈ tm, ∀ d ∈ p.2, (assocLookup tm d).isSome)
    (hrank : ∀ p ∈ tm, ∀ d ∈ p.2, rank d < rank p.1) :
    ∀ (fuel : Nat) (name : String) (deps : List String),
      assocLookup tm name = some deps → rank name < fuel →
      ∃ l, allDependencyNames tm fuel name = .ok l ∧ l.Nodup ∧
        ∀ x, x ∈ l ↔ Reach tm name x := by
  intro fuel
  induction fuel with
  | zero =>
    intro name deps _ hf
    exact absurd hf (Nat.not_lt_zero _)
  | succ fuel ih =>
    intro name deps h hf
    have hmem : (name, deps) ∈ tm := assocLookup_mem tm name deps h
    have Hd : ∀ d ∈ deps, ∃ ld, allDependencyNames tm fuel d = DepResult.ok ld ∧
        ∀ x, x ∈ ld ↔ Reach tm d x := by
      intro d hd
      obtain ⟨depsd, hdepsd⟩ := Option.isSome_iff_exists.mp (hclosed _ hmem d hd)
      have hrd : rank d < fuel :=
        lt_of_lt_of_le (hrank _ hmem d hd) (Nat.lt_succ_iff.mp hf)
      obtain ⟨ld, h1, _, h3⟩ := ih d depsd hdepsd hrd
      exact ⟨ld, h1, h3⟩
    obtain ⟨out, hout, hchar, hnd⟩ :=
      depsLoop_ok (fun d => allDependencyNames tm fuel d) (fun d x => Reach tm d x)
        deps [] Hd
    refine ⟨out, ?_, hnd List.nodup_nil, ?_⟩
    · simp only [allDependencyNames, h]
      exact hout
    · intro x
      rw [hchar x]
      simp only [List.not_mem_nil, false_or]
      exact (reach_iff tm name deps h x).symm

/-- If the dependency loop succeeded, every recursive call it made
succeeded. -/
theorem depsLoop_ok_elem (recur : String → DepResult) :
    ∀ (ds acc out : List String), depsLoop recur ds acc = .ok out →
      ∀ d ∈ ds, ∃ l, recur d = .ok l := by
  intro ds
  induction ds with
  | nil =>
    intro acc out _ d hd
    simp at hd
  | cons d0 rest ih =>
    intro acc out h d hd
    rcases hrec : recur d0 with l0 | n | _
    · rcases List.mem_cons.mp hd with rfl | hd2
      · exact ⟨l0, hrec⟩
      · simp only [depsLoop, hrec] at h
        exact ih _ out h d hd2
    · simp only [depsLoop, hrec] at h
      exact DepResult.noConfusion h
    · simp only [depsLoop, hrec] at h
      exact DepResult.noConfusion h

/-- If `b` is reachable from `a` and the walk from `a` succeeds at some
fuel, then the walk from `b` succeeds at strictly smaller fuel. -/
theorem reach_descend (tm : List (String × List String)) (a b : String)
    (hr : Reach tm a b) :
    ∀ (fuel : Nat) (l : List String), allDependencyNames tm fuel a = .ok l →
      ∃ f2 l2, f2 < fuel ∧ allDependencyNames tm f2 b = .ok l2 := by
  induction hr with
  | head n deps d hlook hd =>
    intro fuel l h
    cases fuel with
    | zero => simp [allDependencyNames] at h
    | succ f =>
      simp only [allDependencyNames, hlook] at h
      obtain ⟨l2, hl2⟩ := depsLoop_ok_elem _ deps [] l h d hd
      exact ⟨f, l2, Nat.lt_succ_self f, hl2⟩
  | step n deps d x hlook hd _ ih =>
    intro fuel l h
    cases fuel with
    | zero => simp [allDependencyNames] at h
    | succ f =>
      simp only [allDependencyNames, hlook] at h
      obtain ⟨ld, hld⟩ := depsLoop_ok_elem _ deps [] l h d hd
      obtain ⟨f2, l2, hlt, h2⟩ := ih f ld hld
      exact ⟨f2, l2, Nat.lt_trans hlt (Nat.lt_succ_self f), h2⟩

/-- C1 counterexample.  On the mutually-referential registry
`liba → libb → liba`, resolving the dependencies of `liba` does not fail
with any cycle error: the recursive walk simply exhausts every recursion
budget (here shown for budgets 10 and 40), i.e. it never terminates.  No
`DependencyCycleError` outcome exists anywhere in the code. -/
theorem cycle_no_dependencyCycleError :
    allDependencyNames cycleTM 10 "liba" = DepResult.outOfFuel ∧
      allDependencyNames cycleTM 40 "liba" = DepResult.outOfFuel := by
  constructor <;> decide

/-- C1 (amended).  For every registry and every target `a` lying on a
dependency cycle (`a` reaches itself), the recursive dependency walk never
returns a result at any recursion budget: there is no visited-set guard
across recursive calls (the per-call dedup list does not stop mutual
recursion), so resolution diverges instead of failing with a
`DependencyCycleError`. -/
theorem cycle_walk_never_terminates (tm : List (String × List String))
    (a : String) (fuel : Nat) (l : List String) (hcyc : Reach tm a a) :
    allDependencyNames tm fuel a ≠ DepResult.ok l := by
  induction fuel using Nat.strong_induction_on generalizing l with
  | _ fuel ih =>
    intro h
    obtain ⟨f2, l2, hlt, h2⟩ := reach_descend tm a a hcyc fuel l h
    exact ih f2 hlt l2 h2

/-- C1 witness: the two-target cycle of the claim reaches itself, and the
amended theorem applies to it. -/
theorem cycle_walk_never_terminates_witness :
    Reach cycleTM "liba" "liba" ∧
      allDependencyNames cycleTM 10 "liba" ≠ DepResult.ok ["libb", "liba"] := by
  have hr : Reach cycleTM "liba" "liba" :=
    Reach.step "liba" ["libb"] "libb" "liba" (by decide) (by decide)
      (Reach.head "libb" ["liba"] "liba" (by decide) (by decide))
  exact ⟨hr, cycle_walk_never_terminates cycleTM "liba" 10 ["libb", "liba"] hr⟩

/-- C5.  For every target `T` with declared dependencies `D` in an acyclic
(witnessed by a rank function decreasing along dependency edges), fully
registered registry, with enough fuel the walk returns a list that contains
every declared dependency, has no duplicate names, and contains each name
of the transitive dependency closure of `T` exactly once. -/
theorem resolveDependencies_closure (tm : List (String × List String))
    (rank : String → Nat)
    (hclosed : ∀ p ∈ tm, ∀ d ∈ p.2, (assocLookup tm d).isSome)
    (hrank : ∀ p ∈ tm, ∀ d ∈ p.2, rank d < rank p.1)
    (T : String) (D : List String) (fuel : Nat)
    (hT : assocLookup tm T = some D) (hfuel : rank T < fuel) :
    ∃ l, allDependencyNames tm fuel T = DepResult.ok l ∧
      (∀ d ∈ D, d ∈ l) ∧ l.Nodup ∧
      (∀ x, x ∈ l ↔ Reach tm T x) ∧
      (∀ x, Reach tm T x → l.count x = 1) := by
  obtain ⟨l, h1, hnd, hiff⟩ :=
    allDependencyNames_ok tm rank hclosed hrank fuel T D hT hfuel
  refine ⟨l, h1, ?_, hnd, hiff, ?_⟩
  · intro d hd
    exact (hiff d).mpr (Reach.head T D d hT hd)
  · intro x hx
    exact List.count_eq_one_of_mem hnd ((hiff x).mpr hx)

/-- C5 witness: the diamond registry `top → {left, right} → base`.  The
first-discovered depth-first result is `[left, base, right]`. -/
theorem resolveDependencies_closure_witness :
    ∃ l, allDependencyNames diamondTM 3 "top" = DepResult.ok l ∧
      (∀ d ∈ ["left", "right"], d ∈ l) ∧ l.Nodup ∧
      (∀ x, x ∈ l ↔ Reach diamondTM "top" x) ∧
      (∀ x, Reach diamondTM "top" x → l.count x = 1) :=
  resolveDependencies_closure diamondTM diamondRank
    (by decide) (by decide) "top" ["left", "right"] 3 (by decide) (by decide)

theorem odSet_mem_self {α : Type} (d : List (String × α)) (k : String) (v : α) :
    (k, v) ∈ odSet d k v := by
  induction d with
  | nil => simp [odSet]
  | cons p rest ih =>
    obtain ⟨k0, v0⟩ := p
    by_cases h : k0 = k
    · simp [odSet, h]
    · simp only [odSet, if_neg h]
      exact List.mem_cons_of_mem _ ih

theorem exceptMapM_mem {α β : Type} (f : α → Except MakeErr β) :
    ∀ (l : List α) (out : List β), exceptMapM f l = .ok out →
      (∀ y ∈ out, ∃ x ∈ l, f x = .ok y) ∧ (∀ x ∈ l, ∃ y ∈ out, f x = .ok y) := by
  intro l
  induction l with
  | nil =>
    intro out h
    simp only [exceptMapM, Except.ok.injEq] at h
    subst h
    constructor
    · intro y hy; simp at hy
    · intro x hx; simp at hx
  | cons x0 rest ih =>
    intro out h
    rcases hx0 : f x0 with e | y0
    · simp only [exceptMapM, hx0] at h
      exact Except.noConfusion h
    · rcases hrest : exceptMapM f rest with e | ys
      · simp only [exceptMapM, hx0, hrest] at h
        exact Except.noConfusion h
      · simp only [exceptMapM, hx0, hrest, Except.ok.injEq] at h
        subst h
        obtain ⟨ih1, ih2⟩ := ih ys hrest
        constructor
        · intro y hy
          rcases List.mem_cons.mp hy with rfl | hy2
          · exact ⟨x0, List.mem_cons_self _ _, hx0⟩
          · obtain ⟨x, hx, hfx⟩ := ih1 y hy2
            exact ⟨x, List.mem_cons_of_mem _ hx, hfx⟩
        · intro x hx
          rcases List.mem_cons.mp hx with rfl | hx2
          · exact ⟨y0, List.mem_cons_self _ _, hx0⟩
          · obtain ⟨y, hy, hfy⟩ := ih2 x hx2
            exact ⟨y, List.mem_cons_of_mem _ hy, hfy⟩

theorem exceptMapM_total {α β : Type} (f : α → Except MakeErr β) :
    ∀ (l : List α), (∀ x ∈ l, ∃ y, f x = .ok y) →
      ∃ out, exceptMapM f l = .ok out := by
  intro l
  induction l with
  | nil => intro _; exact ⟨[], rfl⟩
  | cons x0 rest ih =>
    intro H
    obtain ⟨y0, hy0⟩ := H x0 (List.mem_cons_self _ _)
    obtain ⟨ys, hys⟩ := ih (fun x hx => H x (List.mem_cons_of_mem _ hx))
    exact ⟨y0 :: ys, by simp [exceptMapM, hy0, hys]⟩

theorem exceptMapM_error {α β : Type} (f : α → Except MakeErr β) :
    ∀ (l : List α), (∃ x ∈ l, ∃ e, f x = .error e) →
      ∃ e, exceptMapM f l = .error e := by
  intro l
  induction l with
  | nil => rintro ⟨x, hx, _⟩; simp at hx
  | cons x0 rest ih =>
    rintro ⟨x, hx, e, he⟩
    rcases hx0 : f x0 with e0 | y0
    · exact ⟨e0, by simp [exceptMapM, hx0]⟩
    · rcases List.mem_cons.mp hx with rfl | hx2
      · rw [hx0] at he
        exact Except.noConfusion he
      · obtain ⟨e2, he2⟩ := ih ⟨x, hx2, e, he⟩
        exact ⟨e2, by simp [exceptMapM, hx0, he2]⟩

theorem getDefinedVar_gnu_bsd_total (kind : MakeCommandKind) (name : String)
    (h : kind = .gnuMake ∨ kind = .bsdMake) :
    ∃ s, getDefinedVar kind name = .ok s := by
  rcases h with rfl | rfl
  · exact ⟨name ++ "=1", rfl⟩
  · exact ⟨"-D" ++ name, rfl⟩

/-- Rendering never fails under the GNU or BSD dialect. -/
theorem all_commandline_args_total (o : MakeOptions)
    (h : o.kind = .gnuMake ∨ o.kind = .bsdMake) :
    ∃ l, o.all_commandline_args = .ok l := by
  obtain ⟨varArgs, hv⟩ := exceptMapM_total (varToken o.kind) o.vars (by
    intro p _
    unfold varToken
    by_cases h1 : p.2 = "1"
    · simpa [h1] using getDefinedVar_gnu_bsd_total o.kind p.1 h
    · exact ⟨p.1 ++ "=" ++ p.2, by simp [h1]⟩)
  obtain ⟨withArgs, hw⟩ := exceptMapM_total (withToken o.kind) o.with_options (by
    intro p _
    unfold withToken
    obtain ⟨s, hs⟩ := getDefinedVar_gnu_bsd_total o.kind (if p.2 then "WITH_" else "WITHOUT_") h
    exact ⟨s ++ p.1, by simp [hs]⟩)
  exact ⟨varArgs ++ withArgs ++ o.flags, by
    simp [MakeOptions.all_commandline_args, hv, hw]⟩

/-- C3.  Setting a variable to boolean `True` stores the string `"1"`
(`False` stores `"0"`), and rendering that variable yields `NAME=1` under
the GNU make dialect and `-DNAME` under the BSD make dialect. -/
theorem set_bool_stores_and_renders (og ob : MakeOptions) (k : String)
    (hg : og.kind = .gnuMake) (hb : ob.kind = .bsdMake) :
    assocLookup (og.set k (.bool true)).vars k = some "1" ∧
    assocLookup (og.set k (.bool false)).vars k = some "0" ∧
    (∃ l, (og.set k (.bool true)).all_commandline_args = .ok l ∧ (k ++ "=1") ∈ l) ∧
    (∃ l, (ob.set k (.bool true)).all_commandline_args = .ok l ∧ ("-D" ++ k) ∈ l) := by
  refine ⟨?_, ?_, ?_, ?_⟩
  · simp [MakeOptions.set, assocLookup_odSet, MakeValue.stored]
  · simp [MakeOptions.set, assocLookup_odSet, MakeValue.stored]
  · obtain ⟨l, hl⟩ := all_commandline_args_total (og.set k (.bool true))
      (Or.inl (by simpa [MakeOptions.set] using hg))
    refine ⟨l, hl, ?_⟩
    have hentry : (k, "1") ∈ (og.set k (.bool true)).vars := by
      simpa [MakeOptions.set, MakeValue.stored] using odSet_mem_self og.vars k "1"
    unfold MakeOptions.all_commandline_args at hl
    rcases hv : exceptMapM (varToken (og.set k (.bool true)).kind)
        (og.set k (.bool true)).vars with e | varArgs
    · rw [hv] at hl
      exact Except.noConfusion hl
    · rcases hw : exceptMapM (withToken (og.set k (.bool true)).kind)
          (og.set k (.bool true)).with_options with e | withArgs
      · rw [hv, hw] at hl
        exact Except.noConfusion hl
      · rw [hv, hw] at hl
        injection hl with hl2
        obtain ⟨y, hy, hfy⟩ := (exceptMapM_mem _ _ _ hv).2 (k, "1") hentry
        have hk : (og.set k (.bool true)).kind = MakeCommandKind.gnuMake := by
          simpa [MakeOptions.set] using hg
        rw [hk] at hfy
        simp only [varToken, if_pos rfl, getDefinedVar] at hfy
        injection hfy with hfy2
        subst hfy2
        subst hl2
        exact List.mem_append_left _ (List.mem_append_left _ hy)
  · obtain ⟨l, hl⟩ := all_commandline_args_total (ob.set k (.bool true))
      (Or.inr (by simpa [MakeOptions.set] using hb))
    refine ⟨l, hl, ?_⟩
    have hentry : (k, "1") ∈ (ob.set k (.bool true)).vars := by
      simpa [MakeOptions.set, MakeValue.stored] using odSet_mem_self ob.vars k "1"
    unfold MakeOptions.all_commandline_args at hl
    rcases hv : exceptMapM (varToken (ob.set k (.bool true)).kind)
        (ob.set k (.bool true)).vars with e | varArgs
    · rw [hv] at hl
      exact Except.noConfusion hl
    · rcases hw : exceptMapM (withToken (ob.set k (.bool true)).kind)
          (ob.set k (.bool true)).with_options with e | withArgs
      · rw [hv, hw] at hl
        exact Except.noConfusion hl
      · rw [hv, hw] at hl
        injection hl with hl2
        obtain ⟨y, hy, hfy⟩ := (exceptMapM_mem _ _ _ hv).2 (k, "1") hentry
        have hk : (ob.set k (.bool true)).kind = MakeCommandKind.bsdMake := by
          simpa [MakeOptions.set] using hb
        rw [hk] at hfy
        simp only [varToken, if_pos rfl, getDefinedVar] at hfy
        injection hfy with hfy2
        subst hfy2
        subst hl2
        exact List.mem_append_left _ (List.mem_append_left _ hy)

/-- C3 witness: concrete empty GNU-make and BSD-make option sets and the
variable name `FOO`. -/
theorem set_bool_stores_and_renders_witness :
    assocLookup ((MakeOptions.mk [] [] [] [] .gnuMake).set "FOO" (.bool true)).vars "FOO"
        = some "1" ∧
    assocLookup ((MakeOptions.mk [] [] [] [] .gnuMake).set "FOO" (.bool false)).vars "FOO"
        = some "0" ∧
    (∃ l, ((MakeOptions.mk [] [] [] [] .gnuMake).set "FOO" (.bool true)).all_commandline_args
        = .ok l ∧ ("FOO" ++ "=1") ∈ l) ∧
    (∃ l, ((MakeOptions.mk [] [] [] [] .bsdMake).set "FOO" (.bool true)).all_commandline_args
        = .ok l ∧ ("-D" ++ "FOO") ∈ l) :=
  set_bool_stores_and_renders (MakeOptions.mk [] [] [] [] .gnuMake)
    (MakeOptions.mk [] [] [] [] .bsdMake) "FOO" rfl rfl

theorem getDefinedVar_other_error (kind : MakeCommandKind) (name : String)
    (h1 : kind ≠ .gnuMake) (h2 : kind ≠ .bsdMake) :
    getDefinedVar kind name = .error .assertionFailed := by
  cases kind with
  | gnuMake => exact absurd rfl h1
  | bsdMake => exact absurd rfl h2
  | defaultMake => rfl
  | ninja => rfl
  | customMakeTool => rfl

/-- C9.  Under a make kind that is neither BSD nor GNU make (e.g. Ninja or
the system default make), storing a boolean variable or a WITH/WITHOUT
option is accepted without error, but rendering the command line fails the
`_get_defined_var` assertion as soon as some stored variable has value
`"1"` or some WITH/WITHOUT option is present. -/
theorem render_asserts_for_other_kinds (o : MakeOptions) (k : String)
    (h1 : o.kind ≠ .gnuMake) (h2 : o.kind ≠ .bsdMake)
    (h3 : (∃ p ∈ o.vars, p.2 = "1") ∨ o.with_options ≠ []) :
    (∃ e, o.all_commandline_args = .error e) ∧
    assocLookup (o.set k (.bool true)).vars k = some "1" ∧
    assocLookup (o.set_with_options k true).with_options k = some true := by
  refine ⟨?_, ?_, ?_⟩
  · rcases h3 with ⟨p, hp, hp1⟩ | hw
    · have herr : varToken o.kind p = .error .assertionFailed := by
        simp [varToken, hp1, getDefinedVar_other_error o.kind p.1 h1 h2]
      obtain ⟨e, he⟩ := exceptMapM_error (varToken o.kind) o.vars
        ⟨p, hp, .assertionFailed, herr⟩
      exact ⟨e, by simp [MakeOptions.all_commandline_args, he]⟩
    · rcases hv : exceptMapM (varToken o.kind) o.vars with e | varArgs
      · exact ⟨e, by simp [MakeOptions.all_commandline_args, hv]⟩
      · obtain ⟨q, qs, hqs⟩ := List.exists_cons_of_ne_nil hw
        have herr : withToken o.kind q = .error .assertionFailed := by
          simp [withToken,
            getDefinedVar_other_error o.kind (if q.2 then "WITH_" else "WITHOUT_") h1 h2]
        obtain ⟨e, he⟩ := exceptMapM_error (withToken o.kind) o.with_options
          ⟨q, hqs ▸ List.mem_cons_self _ _, .assertionFailed, herr⟩
        exact ⟨e, by simp [MakeOptions.all_commandline_args, hv, he]⟩
  · simp [MakeOptions.set, assocLookup_odSet, MakeValue.stored]
  · simp [MakeOptions.set_with_options, assocLookup_odSet]

/-- C9 witness: a Ninja option set holding `FOO = "1"`. -/
theorem render_asserts_for_other_kinds_witness :
    (∃ e, (MakeOptions.mk [("FOO", "1")] [] [] [] .ninja).all_commandline_args
        = .error e) ∧
    assocLookup ((MakeOptions.mk [("FOO", "1")] [] [] [] .ninja).set "BAR"
        (.bool true)).vars "BAR" = some "1" ∧
    assocLookup ((MakeOptions.mk [("FOO", "1")] [] [] [] .ninja).set_with_options
        "BAR" true).with_options "BAR" = some true :=
  render_asserts_for_other_kinds (MakeOptions.mk [("FOO", "1")] [] [] [] .ninja)
    "BAR" (by decide) (by decide)
    (Or.inl ⟨("FOO", "1"), List.mem_cons_self _ _, rfl⟩)

/-- C7 counterexample.  Environment overrides are *not* concatenated by
`update`: merging `{X: "2"}` into `{X: "1"}` yields the single entry
`{X: "2"}` (dict `update`, B wins), not the two entries a concatenation
would produce. -/
theorem merge_env_not_concatenated :
    ((MakeOptions.mk [] [] [] [("X", "1")] .gnuMake).update
        (MakeOptions.mk [] [] [] [("X", "2")] .gnuMake)).env_vars
      ≠ [("X", "1")] ++ [("X", "2")] := by
  decide

/-- C7 (amended).  Merging `b` into `a` gives, for variables, WITH/WITHOUT
options *and environment overrides*, the union of both key sets with `b`
winning on every key collision (dict `update` semantics, not
concatenation); raw flags are concatenated, `a`'s entries first. -/
theorem merge_semantics (a b : MakeOptions)
    (hv : (b.vars.map Prod.fst).Nodup)
    (hw : (b.with_options.map Prod.fst).Nodup)
    (he : (b.env_vars.map Prod.fst).Nodup) :
    (∀ k, assocLookup (a.update b).vars k =
      updatedLookup (assocLookup b.vars k) (assocLookup a.vars k)) ∧
    (∀ k, assocLookup (a.update b).with_options k =
      updatedLookup (assocLookup b.with_options k) (assocLookup a.with_options k)) ∧
    (a.update b).flags = a.flags ++ b.flags ∧
    (∀ k, assocLookup (a.update b).env_vars k =
      updatedLookup (assocLookup b.env_vars k) (assocLookup a.env_vars k)) := by
  refine ⟨?_, ?_, rfl, ?_⟩
  · intro k
    simpa [MakeOptions.update] using assocLookup_odUpdate a.vars b.vars hv k
  · intro k
    simpa [MakeOptions.update] using assocLookup_odUpdate a.with_options b.with_options hw k
  · intro k
    simpa [MakeOptions.update] using assocLookup_odUpdate a.env_vars b.env_vars he k

/-- C7 witness: two concrete option sets with colliding and fresh keys in
every component. -/
theorem merge_semantics_witness :
    assocLookup ((MakeOptions.mk [("V", "a0"), ("W", "w0")] [("P", true)] ["-j4"]
        [("E", "e0")] .gnuMake).update
      (MakeOptions.mk [("V", "b1")] [("Q", false)] ["-k"] [("E", "e1")] .bsdMake)).vars "V"
        = some "b1" ∧
    assocLookup ((MakeOptions.mk [("V", "a0"), ("W", "w0")] [("P", true)] ["-j4"]
        [("E", "e0")] .gnuMake).update
      (MakeOptions.mk [("V", "b1")] [("Q", false)] ["-k"] [("E", "e1")] .bsdMake)).vars "W"
        = some "w0" ∧
    ((MakeOptions.mk [("V", "a0"), ("W", "w0")] [("P", true)] ["-j4"]
        [("E", "e0")] .gnuMake).update
      (MakeOptions.mk [("V", "b1")] [("Q", false)] ["-k"] [("E", "e1")] .bsdMake)).flags
        = ["-j4"] ++ ["-k"] ∧
    assocLookup ((MakeOptions.mk [("V", "a0"), ("W", "w0")] [("P", true)] ["-j4"]
        [("E", "e0")] .gnuMake).update
      (MakeOptions.mk [("V", "b1")] [("Q", false)] ["-k"] [("E", "e1")] .bsdMake)).env_vars "E"
        = some "e1" := by
  have h := merge_semantics
    (MakeOptions.mk [("V", "a0"), ("W", "w0")] [("P", true)] ["-j4"] [("E", "e0")] .gnuMake)
    (MakeOptions.mk [("V", "b1")] [("Q", false)] ["-k"] [("E", "e1")] .bsdMake)
    (by decide) (by decide) (by decide)
  refine ⟨?_, ?_, h.2.2.1, ?_⟩
  · rw [h.1 "V"]
    decide
  · rw [h.1 "W"]
    decide
  · rw [h.2.2.2 "E"]
    decide

theorem data_d_append (k : String) : ("-D" ++ k).data = '-' :: 'D' :: k.data := by
  rw [String.data_append]
  have h : ("-D" : String).data = ['-', 'D'] := by decide
  rw [h]
  rfl

theorem data_sep_append (k v : String) : (k ++ "=" ++ v).data = k.data ++ '=' :: v.data := by
  rw [String.data_append, String.data_append]
  have h : ("=" : String).data = ['='] := by decide
  rw [h, List.append_assoc]
  rfl

theorem data_eq1_append (k : String) : (k ++ "=1").data = k.data ++ '=' :: ['1'] := by
  rw [String.data_append]

/-- A token whose characters are `k ++ "=" ++ anything` is never the token
`-DFOO` (which contains no `=`). -/
theorem sep_token_ne_dfoo (t k : String) (r : List Char)
    (ht : t.data = k.data ++ '=' :: r) : t ≠ "-DFOO" := by
  intro h
  subst h
  have hmem : ('=' : Char) ∈ ("-DFOO" : String).data :=
    ht ▸ List.mem_append_right _ (List.mem_cons_self _ _)
  revert hmem
  decide

/-- A token whose characters are `k ++ "=" ++ anything`, where `k ≠ "FOO"`
and `k` contains no `=`, does not start with `FOO=`. -/
theorem sep_token_not_sw_fooeq (t k : String) (r : List Char)
    (ht : t.data = k.data ++ '=' :: r) (hk : k ≠ "FOO")
    (hkeq : ('=' : Char) ∉ k.data) : pyStartsWith t "FOO=" = false := by
  cases hb : pyStartsWith t "FOO=" with
  | false => rfl
  | true =>
    exfalso
    obtain ⟨tail, htail⟩ := (startsWithList_iff_append t.data ("FOO=" : String).data).mp hb
    have hf : ("FOO=" : String).data = "FOO".data ++ ['='] := by decide
    rw [hf, List.append_assoc, List.singleton_append, ht] at htail
    have hfooeq : ('=' : Char) ∉ ("FOO" : String).data := by decide
    exact hk (String.ext (sep_split_eq '=' "FOO".data k.data tail r htail hfooeq hkeq)).symm
      |>.elim

/-- `-D ++ k2` with `k2 ≠ "FOO"` is not the token `-DFOO`. -/
theorem dtoken_ne_dfoo (k2 : String) (hk : k2 ≠ "FOO") : ("-D" ++ k2) ≠ "-DFOO" := by
  intro h
  apply hk
  apply String.ext
  have h1 := congrArg String.data h
  rw [data_d_append] at h1
  have h2 : ("-DFOO" : String).data = '-' :: 'D' :: "FOO".data := by decide
  rw [h2] at h1
  simpa using h1

/-- Any token whose first character is not `F` does not start with `FOO=`. -/
theorem head_ne_not_sw_fooeq (t : String) (c : Char) (cs : List Char)
    (ht : t.data = c :: cs) (hc : c ≠ 'F') : pyStartsWith t "FOO=" = false := by
  cases hb : pyStartsWith t "FOO=" with
  | false => rfl
  | true =>
    exfalso
    obtain ⟨tail, htail⟩ := (startsWithList_iff_append t.data ("FOO=" : String).data).mp hb
    have hf : ("FOO=" : String).data = 'F' :: ['O', 'O', '='] := by decide
    rw [hf, ht] at htail
    simp only [List.cons_append, List.cons.injEq] at htail
    exact hc htail.1.symm

theorem mem_odSet {α : Type} (d : List (String × α)) (k : String) (v : α)
    (p : String × α) (h : p ∈ odSet d k v) : p ∈ d ∨ p.1 = k := by
  induction d with
  | nil =>
    simp only [odSet, List.mem_singleton] at h
    subst h
    exact Or.inr rfl
  | cons q rest ih =>
    obtain ⟨k0, v0⟩ := q
    by_cases hq : k0 = k
    · rw [odSet, if_pos hq] at h
      rcases List.mem_cons.mp h with rfl | h2
      · exact Or.inr rfl
      · exact Or.inl (List.mem_cons_of_mem _ h2)
    · rw [odSet, if_neg hq] at h
      rcases List.mem_cons.mp h with rfl | h2
      · exact Or.inl (List.mem_cons_self _ _)
      · rcases ih h2 with h3 | h3
        · exact Or.inl (List.mem_cons_of_mem _ h3)
        · exact Or.inr h3

theorem ne_dfoo_of_data (t : String) (h : t.data ≠ ("-DFOO" : String).data) :
    t ≠ "-DFOO" :=
  fun he => h (congrArg String.data he)

/-- Inversion of a successful rendering: the argument list is the variable
tokens, then the WITH/WITHOUT tokens, then the raw flags. -/
theorem all_commandline_args_ok_inv (o : MakeOptions) (l : List String)
    (h : o.all_commandline_args = .ok l) :
    ∃ varArgs withArgs, exceptMapM (varToken o.kind) o.vars = .ok varArgs ∧
      exceptMapM (withToken o.kind) o.with_options = .ok withArgs ∧
      l = varArgs ++ withArgs ++ o.flags := by
  unfold MakeOptions.all_commandline_args at h
  rcases hv : exceptMapM (varToken o.kind) o.vars with e | varArgs
  · rw [hv] at h
    exact Except.noConfusion h
  · rcases hw : exceptMapM (withToken o.kind) o.with_options with e | withArgs
    · rw [hv, hw] at h
      exact Except.noConfusion h
    · rw [hv, hw] at h
      injection h with h2
      exact ⟨varArgs, withArgs, rfl, rfl, h2.symm⟩

/-- C6.  After performing `set(FOO=True)` on an option set whose variable
names are Python identifiers (contain no `=`), and adding any raw flags,
`remove_var("FOO")` leaves no `-DFOO` token and no token starting with
`FOO=` in the rendered argument list, under both the GNU and the BSD make
dialect. -/
theorem remove_var_scrubs (o : MakeOptions) (extraFlags : List String)
    (hkind : o.kind = .gnuMake ∨ o.kind = .bsdMake)
    (hkeys : ∀ p ∈ o.vars, ('=' : Char) ∉ p.1.data) :
    ∃ l, (((o.add_flags extraFlags).set "FOO" (.bool true)).remove_var
          "FOO").all_commandline_args = .ok l ∧
      ∀ t ∈ l, t ≠ "-DFOO" ∧ pyStartsWith t "FOO=" = false := by
  obtain ⟨l, hl⟩ := all_commandline_args_total
    (((o.add_flags extraFlags).set "FOO" (.bool true)).remove_var "FOO") hkind
  refine ⟨l, hl, ?_⟩
  intro t ht
  obtain ⟨varArgs, withArgs, hv, hw, hsplit⟩ := all_commandline_args_ok_inv _ l hl
  subst hsplit
  rcases List.mem_append.mp ht with hvw | hfl
  · rcases List.mem_append.mp hvw with hvar | hwith
    · -- a variable token
      obtain ⟨p, hp, hfp⟩ := (exceptMapM_mem _ _ _ hv).1 t hvar
      have hp2 := List.mem_filter.mp hp
      have hpk : p.1 ≠ "FOO" := by
        have := of_decide_eq_true hp2.2
        exact this
      have hpmem : p ∈ o.vars := by
        rcases mem_odSet o.vars "FOO" "1" p hp2.1 with h3 | h3
        · exact h3
        · exact absurd h3 hpk
      have hkeq : ('=' : Char) ∉ p.1.data := hkeys p hpmem
      by_cases hp1 : p.2 = "1"
      · rcases hkind with hkg | hkb
        · have htok : t = p.1 ++ "=1" := by
            rw [varToken, if_pos hp1] at hfp
            have : getDefinedVar MakeCommandKind.gnuMake p.1 = .ok t := by
              rw [← hkg]; exact hfp
            simp only [getDefinedVar, Except.ok.injEq] at this
            exact this.symm
          subst htok
          exact ⟨sep_token_ne_dfoo _ p.1 ['1'] (data_eq1_append p.1),
            sep_token_not_sw_fooeq _ p.1 ['1'] (data_eq1_append p.1) hpk hkeq⟩
        · have htok : t = "-D" ++ p.1 := by
            rw [varToken, if_pos hp1] at hfp
            have : getDefinedVar MakeCommandKind.bsdMake p.1 = .ok t := by
              rw [← hkb]; exact hfp
            simp only [getDefinedVar, Except.ok.injEq] at this
            exact this.symm
          subst htok
          refine ⟨dtoken_ne_dfoo p.1 hpk, ?_⟩
          exact head_ne_not_sw_fooeq _ '-' ('D' :: p.1.data) (data_d_append p.1)
            (by decide)
      · have htok : t = p.1 ++ "=" ++ p.2 := by
          rw [varToken, if_neg hp1] at hfp
          injection hfp with h2
          exact h2.symm
        subst htok
        exact ⟨sep_token_ne_dfoo _ p.1 p.2.data (data_sep_append p.1 p.2),
          sep_token_not_sw_fooeq _ p.1 p.2.data (data_sep_append p.1 p.2) hpk hkeq⟩
    · -- a WITH/WITHOUT token
      obtain ⟨q, _, hfq⟩ := (exceptMapM_mem _ _ _ hw).1 t hwith
      rcases hkind with hkg | hkb
      · have htok : t = (if q.2 then "WITH_" else "WITHOUT_") ++ "=1" ++ q.1 := by
          rw [withToken] at hfq
          have hdv : getDefinedVar MakeCommandKind.gnuMake
              (if q.2 then "WITH_" else "WITHOUT_")
              = .ok ((if q.2 then "WITH_" else "WITHOUT_") ++ "=1") := rfl
          rw [show (((o.add_flags extraFlags).set "FOO" (.bool true)).remove_var
              "FOO").kind = o.kind from rfl, hkg, hdv] at hfq
          injection hfq with h2
          exact h2.symm
        subst htok
        cases hq2 : q.2 with
        | true =>
          have hred : (if true = true then ("WITH_" : String) else "WITHOUT_") = "WITH_" := rfl
          rw [hred]
          constructor
          · apply ne_dfoo_of_data
            rw [String.data_append, String.data_append]
            have hd1 : ("WITH_" : String).data = ['W', 'I', 'T', 'H', '_'] := by decide
            have hd2 : ("=1" : String).data = ['=', '1'] := by decide
            have hd3 : ("-DFOO" : String).data = ['-', 'D', 'F', 'O', 'O'] := by decide
            rw [hd1, hd2, hd3]
            simp
          · apply head_ne_not_sw_fooeq _ 'W'
              (('I' :: 'T' :: 'H' :: '_' :: ['=', '1']) ++ q.1.data)
            · rw [String.data_append, String.data_append]
              have hd1 : ("WITH_" : String).data = ['W', 'I', 'T', 'H', '_'] := by decide
              have hd2 : ("=1" : String).data = ['=', '1'] := by decide
              rw [hd1, hd2]
              rfl
            · decide
        | false =>
          have hred : (if false = true then ("WITH_" : String) else "WITHOUT_") = "WITHOUT_" := rfl
          rw [hred]
          constructor
          · apply ne_dfoo_of_data
            rw [String.data_append, String.data_append]
            have hd1 : ("WITHOUT_" : String).data
                = ['W', 'I', 'T', 'H', 'O', 'U', 'T', '_'] := by decide
            have hd2 : ("=1" : String).data = ['=', '1'] := by decide
            have hd3 : ("-DFOO" : String).data = ['-', 'D', 'F', 'O', 'O'] := by decide
            rw [hd1, hd2, hd3]
            simp
          · apply head_ne_not_sw_fooeq _ 'W'
              (('I' :: 'T' :: 'H' :: 'O' :: 'U' :: 'T' :: '_' :: ['=', '1']) ++ q.1.data)
            · rw [String.data_append, String.data_append]
              have hd1 : ("WITHOUT_" : String).data
                  = ['W', 'I', 'T', 'H', 'O', 'U', 'T', '_'] := by decide
              have hd2 : ("=1" : String).data = ['=', '1'] := by decide
              rw [hd1, hd2]
              rfl
            · decide
      · have htok : t = "-D" ++ (if q.2 then "WITH_" else "WITHOUT_") ++ q.1 := by
          rw [withToken] at hfq
          have hdv : getDefinedVar MakeCommandKind.bsdMake
              (if q.2 then "WITH_" else "WITHOUT_")
              = .ok ("-D" ++ (if q.2 then "WITH_" else "WITHOUT_")) := rfl
          rw [show (((o.add_flags extraFlags).set "FOO" (.bool true)).remove_var
              "FOO").kind = o.kind from rfl, hkb, hdv] at hfq
          injection hfq with h2
          exact h2.symm
        subst htok
        cases hq2 : q.2 with
        | true =>
          have hred : (if true = true then ("WITH_" : String) else "WITHOUT_") = "WITH_" := rfl
          rw [hred]
          constructor
          · apply ne_dfoo_of_data
            rw [String.data_append, String.data_append]
            have hd1 : ("-D" : String).data = ['-', 'D'] := by decide
            have hd2 : ("WITH_" : String).data = ['W', 'I', 'T', 'H', '_'] := by decide
            have hd3 : ("-DFOO" : String).data = ['-', 'D', 'F', 'O', 'O'] := by decide
            rw [hd1, hd2, hd3]
            simp
          · apply head_ne_not_sw_fooeq _ '-'
              (('D' :: ['W', 'I', 'T', 'H', '_']) ++ q.1.data)
            · rw [String.data_append, String.data_append]
              have hd1 : ("-D" : String).data = ['-', 'D'] := by decide
              have hd2 : ("WITH_" : String).data = ['W', 'I', 'T', 'H', '_'] := by decide
              rw [hd1, hd2]
              rfl
            · decide
        | false =>
          have hred : (if false = true then ("WITH_" : String) else "WITHOUT_") = "WITHOUT_" := rfl
          rw [hred]
          constructor
          · apply ne_dfoo_of_data
            rw [String.data_append, String.data_append]
            have hd1 : ("-D" : String).data = ['-', 'D'] := by decide
            have hd2 : ("WITHOUT_" : String).data
                = ['W', 'I', 'T', 'H', 'O', 'U', 'T', '_'] := by decide
            have hd3 : ("-DFOO" : String).data = ['-', 'D', 'F', 'O', 'O'] := by decide
            rw [hd1, hd2, hd3]
            simp
          · apply head_ne_not_sw_fooeq _ '-'
              (('D' :: ['W', 'I', 'T', 'H', 'O', 'U', 'T', '_']) ++ q.1.data)
            · rw [String.data_append, String.data_append]
              have hd1 : ("-D" : String).data = ['-', 'D'] := by decide
              have hd2 : ("WITHOUT_" : String).data
                  = ['W', 'I', 'T', 'H', 'O', 'U', 'T', '_'] := by decide
              rw [hd1, hd2]
              rfl
            · decide
  · -- a raw flag that survived the scrub
    have hf2 := List.mem_filter.mp hfl
    have hcond := of_decide_eq_true hf2.2
    push_neg at hcond
    have hdfoo : ("-D" ++ "FOO" : String) = "-DFOO" := by decide
    have hfooeq : ("FOO" ++ "=" : String) = "FOO=" := by decide
    constructor
    · intro he
      apply hcond.1
      rw [he, hdfoo]
      decide
    · have := hcond.2
      rw [hfooeq] at this
      cases hb : pyStartsWith t "FOO=" with
      | false => rfl
      | true => exact absurd hb this

/-- C6 witness: a BSD-make option set that already holds a variable `BAR`,
a WITH-option `MAN`, and the raw flags `-DFOO`, ` -DFOO `, `FOO=old` and
`-j8`, to which `FOO` is set and then removed. -/
theorem remove_var_scrubs_witness :
    ∃ l, ((((MakeOptions.mk [("BAR", "1")] [("MAN", true)] ["-DFOO", " -DFOO ", "FOO=old", "-j8"]
          [] .bsdMake).add_flags ["-DFOO"]).set "FOO" (.bool true)).remove_var
          "FOO").all_commandline_args = .ok l ∧
      ∀ t ∈ l, t ≠ "-DFOO" ∧ pyStartsWith t "FOO=" = false :=
  remove_var_scrubs
    (MakeOptions.mk [("BAR", "1")] [("MAN", true)] ["-DFOO", " -DFOO ", "FOO=old", "-j8"]
      [] .bsdMake)
    ["-DFOO"] (Or.inr rfl) (by decide)

/-- C4.  On an already-cloned tree whose stash prompt (asked only when the
diff-stat detects changes) is not declined, the update performs exactly the
claimed operation sequence; in particular a clean working tree performs
zero stash operations. -/
theorem updateGitRepo_order (env : GitEnv) (revision : Option String)
    (initialBranch : Option String) (skipSubmodules : Bool)
    (hcloned : env.gitDirExists = true)
    (hconfirm : env.diffStatLen > 1 → env.stashAnswer = true) :
    updateGitRepo env revision initialBranch skipSubmodules
        = .ok (claimUpdateOrder env revision skipSubmodules) ∧
      (env.diffStatLen ≤ 1 →
        GitOp.stashSave ∉ claimUpdateOrder env revision skipSubmodules ∧
        GitOp.stashPop ∉ claimUpdateOrder env revision skipSubmodules) := by
  constructor
  · unfold updateGitRepo ensureGitRepoIsCloned claimUpdateOrder
    rw [hcloned]
    by_cases hch : env.diffStatLen > 1
    · have ha : env.stashAnswer = true := hconfirm hch
      simp only [hch, ha]
      simp only [decide_eq_true_eq]
      rcases revision with _ | r <;>
        rcases hs : skipSubmodules <;>
          rcases hn : env.stashSaysNoLocalChanges <;>
            simp [hch, ha]
    · rcases revision with _ | r <;>
        rcases hs : skipSubmodules <;>
          simp [hch]
  · intro hclean
    have hch : ¬env.diffStatLen > 1 := by omega
    unfold claimUpdateOrder
    rcases revision with _ | r <;>
      rcases hs : skipSubmodules <;>
        simp [hch]

/-- C4 witness: a cloned dirty tree whose stash reports real changes, with
submodules enabled and a pinned revision. -/
theorem updateGitRepo_order_witness :
    (updateGitRepo (GitEnv.mk true true 5 true false) (some "deadbeef") none false
        = .ok (claimUpdateOrder (GitEnv.mk true true 5 true false) (some "deadbeef") false) ∧
      ((GitEnv.mk true true 5 true false).diffStatLen ≤ 1 →
        GitOp.stashSave ∉ claimUpdateOrder (GitEnv.mk true true 5 true false)
            (some "deadbeef") false ∧
        GitOp.stashPop ∉ claimUpdateOrder (GitEnv.mk true true 5 true false)
            (some "deadbeef") false)) ∧
    claimUpdateOrder (GitEnv.mk true true 5 true false) (some "deadbeef") false
      = [GitOp.diffStat, GitOp.stashSave, GitOp.pull true, GitOp.submoduleUpdate,
         GitOp.stashPop, GitOp.checkout "deadbeef"] :=
  ⟨updateGitRepo_order (GitEnv.mk true true 5 true false) (some "deadbeef") none false
      rfl (fun _ => rfl),
    by decide⟩

/-- C10.  When the diff-stat detects local changes and the stash prompt is
answered negatively, the update returns immediately after the detection:
no stash, pull, submodule update or revision checkout happens (even when a
revision pin was requested), and no operation in the trace mutates the
working tree. -/
theorem updateGitRepo_declined_stops (env : GitEnv) (revision : Option String)
    (initialBranch : Option String) (skipSubmodules : Bool)
    (hcloned : env.gitDirExists = true)
    (hchanges : env.diffStatLen > 1)
    (hdecline : env.stashAnswer = false) :
    updateGitRepo env revision initialBranch skipSubmodules = .ok [GitOp.diffStat] ∧
      ∀ op ∈ [GitOp.diffStat], op.mutatesTree = false := by
  constructor
  · unfold updateGitRepo ensureGitRepoIsCloned
    rw [hcloned]
    simp [hchanges, hdecline]
  · intro op hop
    rw [List.mem_singleton.mp hop]
    rfl

/-- C10 witness: a cloned dirty tree, stash prompt declined, revision pin
requested. -/
theorem updateGitRepo_declined_stops_witness :
    updateGitRepo (GitEnv.mk true true 7 false false) (some "v1.0") none false
        = .ok [GitOp.diffStat] ∧
      ∀ op ∈ [GitOp.diffStat], op.mutatesTree = false :=
  updateGitRepo_declined_stops (GitEnv.mk true true 7 false false) (some "v1.0")
    none false rfl (by decide) rfl

theorem checkSystemDependencies_sets_flag (st st2 : ProjState)
    (h : checkSystemDependencies st = .ok st2) : st2.systemDepsChecked = true := by
  unfold checkSystemDependencies at h
  split at h
  · exact Except.noConfusion h
  · injection h with h2
    rw [← h2]

theorem processCheckStep_flag (st st2 : ProjState) (evs : List Phase)
    (h : processCheckStep st = .ok (st2, evs)) :
    st2.systemDepsChecked = true ∨ st2 = st := by
  unfold processCheckStep at h
  split at h
  · injection h with h2
    rw [Prod.mk.injEq] at h2
    exact Or.inr h2.1.symm
  · split at h
    · rename_i st3 hst3
      injection h with h2
      rw [Prod.mk.injEq] at h2
      exact Or.inl (h2.1 ▸ checkSystemDependencies_sets_flag st st3 hst3)
    · exact Except.noConfusion h

theorem processCheckStep_no_compile (st st2 : ProjState) (evs : List Phase)
    (h : processCheckStep st = .ok (st2, evs)) (b : Bool) :
    Phase.compilePhase b ∉ evs := by
  unfold processCheckStep at h
  split at h
  · injection h with h2
    rw [Prod.mk.injEq] at h2
    rw [← h2.2]
    simp
  · split at h
    · injection h with h2
      rw [Prod.mk.injEq] at h2
      rw [← h2.2]
      simp
    · exact Except.noConfusion h

theorem processUpdateStep_no_compile (cfg : BuildConfig) (st : ProjState)
    (evs : List Phase) (h : processUpdateStep cfg st = .ok evs) (b : Bool) :
    Phase.compilePhase b ∉ evs := by
  unfold processUpdateStep at h
  split at h
  · injection h with h2
    rw [← h2]
    simp
  · split at h
    · injection h with h2
      rw [← h2]
      simp
    · exact Except.noConfusion h

/-- C2 counterexample.  Invoking `compile()` directly while the
`_systemDepsChecked` flag is still false is *not* rejected: the method
contains no invariant check and simply proceeds to run make (the trace
records the flag as false at call time, with no error raised). -/
theorem compile_unchecked_proceeds :
    (ProjState.mk false [] true false).systemDepsChecked = false ∧
      projectCompile (ProjState.mk false [] true false)
        = [Phase.compilePhase false] :=
  ⟨rfl, rfl⟩

theorem not_mem_append2 {α : Type} {x : α} {l1 l2 : List α}
    (h1 : x ∉ l1) (h2 : x ∉ l2) : x ∉ l1 ++ l2 := by
  intro hm
  rcases List.mem_append.mp hm with hm1 | hm2
  · exact h1 hm1
  · exact h2 hm2

theorem not_mem_ite_append {x : Phase} {l : List Phase} {c : Prop} [Decidable c]
    {y : Phase} (hl : x ∉ l) (hy : x ≠ y) :
    x ∉ (if c then l ++ [y] else l) := by
  split
  · intro hm
    rcases List.mem_append.mp hm with hm1 | hm2
    · exact hl hm1
    · exact hy (List.mem_singleton.mp hm2)
  · exact hl

/-- C2 (amended).  `compile()` itself performs no invariant check; the
enforcement lives in `process()`, which runs `checkSystemDependencies`
whenever the flag is unset and asserts the flag before the compile phase,
so within the lifecycle `compile()` is never invoked with the flag false:
every successful run contains no compile event with the flag false, and
(unless stopped by configure-only mode) contains the compile event with
the flag true. -/
theorem process_compile_only_after_check (cfg : BuildConfig) (st : ProjState)
    (tr : List Phase) (h : process cfg st = .ok tr) :
    Phase.compilePhase false ∉ tr ∧
      (cfg.configureOnly = false → Phase.compilePhase true ∈ tr) := by
  unfold process at h
  rcases hu : processUpdateStep cfg st with e | updEvs
  · rw [hu] at h
    exact Except.noConfusion h
  rw [hu] at h
  rcases hc : processCheckStep st with e | p
  · rw [hc] at h
    exact Except.noConfusion h
  obtain ⟨st2, chkEvs⟩ := p
  rw [hc] at h
  simp only [] at h
  by_cases hflag : st2.systemDepsChecked = false
  · rw [if_pos hflag] at h
    exact Except.noConfusion h
  rw [if_neg hflag] at h
  have hflag2 : st2.systemDepsChecked = true := by
    revert hflag
    cases st2.systemDepsChecked <;> simp
  have hpre0 : Phase.compilePhase false ∉
      (if st.generateCmakelists = true then [Phase.generateCmakelistsPhase] else []) := by
    split <;> simp
  have ht2 : Phase.compilePhase false ∉
      ((if st.generateCmakelists = true then [Phase.generateCmakelistsPhase] else [])
        ++ updEvs ++ chkEvs) :=
    not_mem_append2
      (not_mem_append2 hpre0 (processUpdateStep_no_compile cfg st updEvs hu false))
      (processCheckStep_no_compile st st2 chkEvs hc false)
  by_cases hco : cfg.configureOnly = true
  · rw [if_pos hco] at h
    injection h with h2
    subst h2
    refine ⟨not_mem_ite_append (not_mem_ite_append ht2 (by simp)) (by simp), ?_⟩
    intro hco2
    rw [hco2] at hco
    exact Bool.noConfusion hco
  · rw [if_neg hco] at h
    injection h with h2
    subst h2
    have hcompf : Phase.compilePhase false ∉ projectCompile st2 := by
      unfold projectCompile
      rw [hflag2]
      simp
    have hcompt : Phase.compilePhase true ∈ projectCompile st2 := by
      unfold projectCompile
      rw [hflag2]
      simp
    constructor
    · exact not_mem_ite_append
        (not_mem_append2
          (not_mem_ite_append (not_mem_ite_append ht2 (by simp)) (by simp)) hcompf)
        (by simp)
    · intro _
      split
      · exact List.mem_append_left _ (List.mem_append_right _ hcompt)
      · exact List.mem_append_right _ hcompt

/-- C2 witness: a full run (no skip flags) from an unchecked state with one
available required tool; the lifecycle compiles with the flag set. -/
theorem process_compile_only_after_check_witness :
    Phase.compilePhase false ∉
        [Phase.updatePhase, Phase.checkSysDepsPhase, Phase.configurePhase,
          Phase.compilePhase true, Phase.installPhase] ∧
      ((BuildConfig.mk false false false false false).configureOnly = false →
        Phase.compilePhase true ∈
          [Phase.updatePhase, Phase.checkSysDepsPhase, Phase.configurePhase,
            Phase.compilePhase true, Phase.installPhase]) :=
  process_compile_only_after_check (BuildConfig.mk false false false false false)
    (ProjState.mk false [("make", true)] true false)
    [Phase.updatePhase, Phase.checkSysDepsPhase, Phase.configurePhase,
      Phase.compilePhase true, Phase.installPhase] rfl

theorem assocLookup_mutateAttr (d : List (String × AttrValue)) (name : String)
    (f : AttrValue → AttrValue) (q : String) :
    assocLookup (mutateAttr d name f) q =
      if q = name then (assocLookup d q).map f else assocLookup d q := by
  induction d with
  | nil => simp [mutateAttr, assocLookup]
  | cons p rest ih =>
    obtain ⟨k0, v0⟩ := p
    have hstep : mutateAttr ((k0, v0) :: rest) name f =
        (if k0 = name then (k0, f v0) else (k0, v0)) :: mutateAttr rest name f := by
      simp only [mutateAttr, List.map_cons]
    rw [hstep]
    by_cases hk : k0 = name
    · subst hk
      rw [if_pos rfl]
      by_cases hq : k0 = q
      · subst hq
        simp [assocLookup]
      · have hq2 : ¬q = k0 := fun hh => hq hh.symm
        simp [assocLookup, hq, hq2, ih]
    · rw [if_neg hk]
      by_cases hq : k0 = q
      · subst hq
        simp [assocLookup, hk]
      · simp [assocLookup, hq, ih]

/-- C8.  After construction completes, `_preventAssign` is set, and from
then on: rebinding any of `configureArgs`, `configureEnvironment` or
`make_args` is rejected as a fatal error, in-place mutation of those
containers stays available (total) and does not disturb the guard, and no
ordinary assignment (other than to `_preventAssign` itself) disarms the
guard — so the invariant holds for every subsequent operation of the
lifecycle. -/
theorem option_containers_not_reassignable :
    (∀ (mk : MakeCommandKind) (mc : String),
      projectInit mk mc = .ok (initDict mk mc) ∧
        preventAssignSet (initDict mk mc) = true) ∧
    (∀ (d : List (String × AttrValue)) (name : String) (v : AttrValue),
      preventAssignSet d = true →
      name ∈ ["configureArgs", "configureEnvironment", "make_args"] →
      setattr d name v = .error (.reassign name)) ∧
    (∀ (d : List (String × AttrValue)) (name : String) (f : AttrValue → AttrValue),
      name ∈ ["configureArgs", "configureEnvironment", "make_args"] →
      assocLookup (mutateAttr d name f) name = (assocLookup d name).map f ∧
        preventAssignSet (mutateAttr d name f) = preventAssignSet d) ∧
    (∀ (d d2 : List (String × AttrValue)) (name : String) (v : AttrValue),
      setattr d name v = .ok d2 → name ≠ "_preventAssign" →
      preventAssignSet d2 = preventAssignSet d) := by
  refine ⟨?_, ?_, ?_, ?_⟩
  · intro mk mc
    exact ⟨rfl, rfl⟩
  · intro d name v h1 h2
    rw [setattr, if_pos ⟨h1, h2⟩]
  · intro d name f hmem
    constructor
    · rw [assocLookup_mutateAttr, if_pos rfl]
    · unfold preventAssignSet
      rw [assocLookup_mutateAttr]
      have hne : ¬("_preventAssign" : String) = name := by
        simp only [List.mem_cons, List.not_mem_nil, or_false] at hmem
        rcases hmem with rfl | rfl | rfl <;> decide
      rw [if_neg hne]
  · intro d d2 name v h hne
    unfold setattr at h
    split at h
    · exact Except.noConfusion h
    · injection h with h2
      unfold preventAssignSet
      rw [← h2, assocLookup_odSet]
      have hne2 : ¬name = "_preventAssign" := hne
      rw [if_neg hne2]

/-- C8 witness: the guard in action on the dictionary produced by
construction with GNU make. -/
theorem option_containers_not_reassignable_witness :
    (projectInit .gnuMake "gmake" = .ok (initDict .gnuMake "gmake") ∧
      preventAssignSet (initDict .gnuMake "gmake") = true) ∧
    setattr (initDict .gnuMake "gmake") "make_args" (.strList [])
        = .error (.reassign "make_args") ∧
    (assocLookup (mutateAttr (initDict .gnuMake "gmake") "make_args"
          (fun _ => .str "mutated")) "make_args"
        = (assocLookup (initDict .gnuMake "gmake") "make_args").map
            (fun _ => .str "mutated") ∧
      preventAssignSet (mutateAttr (initDict .gnuMake "gmake") "make_args"
          (fun _ => .str "mutated"))
        = preventAssignSet (initDict .gnuMake "gmake")) ∧
    preventAssignSet (odSet (initDict .gnuMake "gmake") "sourceDir" (.str "/src"))
      = preventAssignSet (initDict .gnuMake "gmake") :=
  ⟨option_containers_not_reassignable.1 .gnuMake "gmake",
    option_containers_not_reassignable.2.1 (initDict .gnuMake "gmake") "make_args"
      (.strList []) rfl (by decide),
    option_containers_not_reassignable.2.2.1 (initDict .gnuMake "gmake") "make_args"
      (fun _ => .str "mutated") (by decide),
    option_containers_not_reassignable.2.2.2 (initDict .gnuMake "gmake")
      (odSet (initDict .gnuMake "gmake") "sourceDir" (.str "/src")) "sourceDir"
      (.str "/src") rfl (by decide)⟩

end CheriBuild

